import Mathlib

/-!
Verification of `polus-feature-heatmap-pyramid-plugin/src/main.py`.

The Python program is shallowly embedded: pure computations become Lean
functions over `ℚ`, `ℤ`, `ℕ`, `String` and lists; the mutable per-image
dictionaries of the `FilePattern` index become record structures updated by
explicit list transformations; code that can raise a Python exception is
modelled in `Except String`, with the error string naming the exception
class that the source would raise at that point.
-/

/-- Python's built-in `round` (round half to even, "banker's rounding") on an
exact rational, as invoked in the scaling loop of `main`:
`round((fl[ft] - feature_mins[ft])/feature_ranges[ft] * 254 + 1)`. -/
def pyRound (q : ℚ) : ℤ :=
  if q - (⌊q⌋ : ℚ) < 1/2 then ⌊q⌋
  else if (1 : ℚ)/2 < q - (⌊q⌋ : ℚ) then ⌊q⌋ + 1
  else if ⌊q⌋ % 2 = 0 then ⌊q⌋ else ⌊q⌋ + 1

/-- Python `min(val)` over a feature's collected list of means
(`feature_mins[key] = min(val)` in `main`); `0` stands in for the
`ValueError` that Python raises on an empty list, a case no claim touches. -/
def listMin : List ℚ → ℚ
  | [] => 0
  | a :: t => t.foldl min a

/-- Python `max(val)` over a feature's collected list of means
(`feature_ranges[key] = max(val) - feature_mins[key]` in `main`). -/
def listMax : List ℚ → ℚ
  | [] => 0
  | a :: t => t.foldl max a

/-- Body of the feature scaling loop of `main`:
`fl[ft] = round((fl[ft] - feature_mins[ft])/feature_ranges[ft] * 254 + 1)`
with `except ZeroDivisionError: fl[ft] = 0`.  The `if rng = 0` branch models
the `ZeroDivisionError` handler (Python float division by `0.0` raises). -/
def scaleLevel (mn rng v : ℚ) : ℤ :=
  if rng = 0 then 0 else pyRound ((v - mn) / rng * 254 + 1)

/-- One line of a stitching vector after the regex
`file: (.*); corr: (.*); position: \((.*), (.*)\); grid: \((.*), (.*)\);`
has matched; all six captured fields are kept as strings, as in the source. -/
structure StitchLine where
  file : String
  corr : String
  posX : String
  posY : String
  gridX : String
  gridY : String
deriving DecidableEq

/-- The fields `_parse_stitch` writes into an image dictionary in one matched
iteration: `correlation`, `posX`, `posY`, `gridX`, `gridY` (from the line),
`vector` (the vector id), `line` (the running counter) and `width`/`height`
(from `imagesize.get`).  They are always set together, so they are bundled. -/
structure StitchData where
  correlation : String
  posX : String
  posY : String
  gridX : String
  gridY : String
  vector : String
  line : ℕ
  width : ℕ
  height : ℕ
deriving DecidableEq

/-- An image record of the `FilePattern` index as seen by `_parse_stitch`:
the `file` path plus the optionally attached stitching fields. -/
structure SRec where
  file : String
  stitch : Option StitchData := none
deriving DecidableEq

/-- Mutation of the first list element satisfying `p` — the in-place update of
the dictionary returned by `_get_file_dict`, which scans `fp.iterate()` and
stops at the first match. -/
def updateFirst {α : Type} (p : α → Bool) (f : α → α) : List α → List α
  | [] => []
  | r :: rs => if p r then f r :: rs else r :: updateFirst p f rs

/-- The match test of `_get_file_dict`: `Path(f['file']).name == fname`.
`pn` stands for `Path(...).name`. -/
def matchesLine (pn : String → String) (fname : String) (r : SRec) : Bool :=
  pn r.file == fname

/-- One matched iteration of the `_parse_stitch` line loop: attach the parsed
fields, the vector id `vind`, the running counter `c` as `line`, and the image
size `dims r.file` (the `imagesize.get(current_image['file'])` call). -/
def applyStitch (L : StitchLine) (vind : String) (c : ℕ) (dims : String → ℕ × ℕ)
    (r : SRec) : SRec :=
  let st : StitchData :=
    { correlation := L.corr, posX := L.posX, posY := L.posY, gridX := L.gridX,
      gridY := L.gridY, vector := vind, line := c, width := (dims r.file).1,
      height := (dims r.file).2 }
  { r with stitch := some st }

/-- The line loop of `_parse_stitch` over one vector file.  Each element of the
input list is `some L` when `re.match(line_regex, line)` succeeded and `none`
when it returned `None`; in the latter case `stitch_groups.groups()` raises
`AttributeError`, which is not caught.  The counter `c` is `line_num`: note it
is incremented only after a matched line. -/
def parseStitchLines (pn : String → String) (dims : String → ℕ × ℕ) (vind : String) :
    List (Option StitchLine) → List SRec → ℕ → Except String (List SRec)
  | [], idx, _ => .ok idx
  | none :: _, _, _ => .error "AttributeError"
  | some L :: ls, idx, c =>
    if idx.any (matchesLine pn L.file) then
      parseStitchLines pn dims vind ls
        (updateFirst (matchesLine pn L.file) (applyStitch L vind c dims) idx) (c + 1)
    else
      parseStitchLines pn dims vind ls idx c

/-- The same loop restricted to well-formed lines (every regex match
succeeded); `parseStitchLines` on `ls.map some` returns exactly this. -/
def parseStitchOk (pn : String → String) (dims : String → ℕ × ℕ) (vind : String) :
    List StitchLine → List SRec → ℕ → List SRec
  | [], idx, _ => idx
  | L :: ls, idx, c =>
    if idx.any (matchesLine pn L.file) then
      parseStitchOk pn dims vind ls
        (updateFirst (matchesLine pn L.file) (applyStitch L vind c dims) idx) (c + 1)
    else
      parseStitchOk pn dims vind ls idx c

/-- Number of lines of `ls` whose file reference matches a record of the
index — the value of `line_num` after processing `ls`. -/
def matchedCount (pn : String → String) (idx : List SRec) (ls : List StitchLine) : ℕ :=
  (ls.filter fun L => idx.any (matchesLine pn L.file)).length

/-- Concrete record for the image `A.tif`, before any stitching data. -/
def exSRecA : SRec := { file := "A.tif", stitch := none }

/-- Concrete stitching line referencing a file absent from the index. -/
def exLineMiss : StitchLine :=
  { file := "missing.tif", corr := "0.5", posX := "1", posY := "2", gridX := "3", gridY := "4" }

/-- Concrete stitching line referencing `A.tif`. -/
def exLineA : StitchLine :=
  { file := "A.tif", corr := "0.9", posX := "5", posY := "6", gridX := "7", gridY := "8" }

/-- One CSV cell: either a string `float()` rejects (`get_number` returns
`False`) or the number it yields. -/
inductive Cell where
  | num (q : ℚ)
  | txt (s : String)
deriving DecidableEq

/-- A value of the parsed row dictionary `p_line` after the conversion pass of
`_parse_features`: numeric cells become the singleton list `[v]`
(`p_line[key] = [v]`), the rest keep their original string. -/
inductive PyVal where
  | pstr (s : String)
  | plist (l : List ℚ)
deriving DecidableEq

/-- The `isinstance(val, list)` test on a `p_line` value. -/
def isPlist : PyVal → Bool
  | .plist _ => true
  | .pstr _ => false

/-- An image record of the index as seen by `_parse_features`: the file path
plus the feature means stored so far (dictionary keyed by column name). -/
structure FRec where
  file : String
  feats : List (String × ℚ)
deriving DecidableEq

/-- The global accumulator `feature_list`: for each feature name, the list of
per-image means appended so far. -/
abbrev FeatList := List (String × List ℚ)

/-- Build `p_line` from the headers and one data row:
`{var_ind[ind]: val for ind, val in enumerate(line.rstrip('\n').split(','))}`
followed by the numeric-conversion pass. -/
def toPLine (hdrs : List String) (row : List Cell) : List (String × PyVal) :=
  (hdrs.zip row).map fun hc =>
    (hc.1, match hc.2 with
           | .num q => .plist [q]
           | .txt s => .pstr s)

/-- Dictionary lookup `p_line[k]`. -/
def plGet (pl : List (String × PyVal)) (k : String) : Option PyVal :=
  (pl.find? fun p => p.1 == k).map fun p => p.2

/-- The `_get_file_dict` comparison for a feature row:
`Path(f['file']).name == p_line['file']`.  When the `file` cell happened to
parse as a number, `p_line['file']` is a list and Python's comparison of a
string with a list is plainly `False`. -/
def fileMatches (pn : String → String) (r : FRec) (v : PyVal) : Bool :=
  match v with
  | .pstr s => pn r.file == s
  | .plist _ => false

/-- `statistics.mean` on an exact rational list (total: the empty case, which
Python rejects, yields `0` and is unreachable from the call site, where the
argument is always a nonempty accumulated list). -/
def listMean (l : List ℚ) : ℚ := l.sum / (l.length : ℚ)

/-- Dictionary assignment `current_image[key] = v`: replace an existing
binding in place, else append a new binding at the end. -/
def setFeat (feats : List (String × ℚ)) (k : String) (v : ℚ) : List (String × ℚ) :=
  if feats.any (fun p => p.1 == k) then
    feats.map fun p => if p.1 == k then (p.1, v) else p
  else feats ++ [(k, v)]

/-- `feature_list[key].append(v)`; a missing key would raise `KeyError`. -/
def appendFeat (fl : FeatList) (k : String) (v : ℚ) : Except String FeatList :=
  if fl.any (fun p => p.1 == k) then
    .ok (fl.map fun p => if p.1 == k then (p.1, p.2 ++ [v]) else p)
  else .error "KeyError"

/-- The mean block at the end of a group in `_parse_features`: for every
list-valued key of `p_line`, write `statistics.mean(val)` into the record's
dictionary and append the same value to `feature_list[key]`. -/
def applyMeans : List (String × PyVal) → List (String × ℚ) → FeatList →
    Except String (List (String × ℚ) × FeatList)
  | [], feats, fl => .ok (feats, fl)
  | (_, .pstr _) :: ps, feats, fl => applyMeans ps feats fl
  | (k, .plist l) :: ps, feats, fl =>
    match appendFeat fl k (listMean l) with
    | .error e => .error e
    | .ok fl2 => applyMeans ps (setFeat feats k (listMean l)) fl2

/-- State of the data-row loop of `_parse_features` while inside a group: the
group's `p_line['file']` value and the full `p_line` dictionary. -/
structure GroupSt where
  fv : PyVal
  pl : List (String × PyVal)
deriving DecidableEq

/-- End of a group: run the mean block against the record found at group
start.  Records never change their `file` field, so looking the record up
again finds the same record the Python `current_image` reference points to;
the `none` branch is unreachable because a group only starts on a match. -/
def finishGroup (pn : String → String) (st : GroupSt) (idx : List FRec)
    (fl : FeatList) : Except String (List FRec × FeatList) :=
  match idx.find? (fun r => fileMatches pn r st.fv) with
  | none => .ok (idx, fl)
  | some r =>
    match applyMeans st.pl r.feats fl with
    | .error e => .error e
    | .ok (fe2, fl2) =>
      .ok (updateFirst (fun r2 => fileMatches pn r2 st.fv)
        (fun r2 => { r2 with feats := fe2 }) idx, fl2)

/-- The data-row loop of `_parse_features` over one CSV file, as a state
machine over rows.  With no active group a row either starts a group (its
file reference matches a record) or is skipped (`current_image == None`: read
the next line and continue).  With an active group, a row with the same file
value runs the inner accumulation body — which calls `float(val)` on the list
`p_line[key]` ITSELF (not on the new row's cell), so it raises an uncaught
`TypeError` whenever `p_line` has any numeric column — while a row with a
different file value ends the group (mean block) and is then examined as a
possible new group head, exactly as the buffered `line` is re-parsed by the
outer `while` in the source; end of input ends an active group.  A row whose
dictionary lacks the `file` key raises `KeyError`. -/
def parseRowsGo (pn : String → String) (hdrs : List String) :
    Option GroupSt → List (List Cell) → List FRec → FeatList →
    Except String (List FRec × FeatList)
  | none, [], idx, fl => .ok (idx, fl)
  | some st, [], idx, fl => finishGroup pn st idx fl
  | none, row :: rest, idx, fl =>
    match plGet (toPLine hdrs row) "file" with
    | none => .error "KeyError"
    | some fv =>
      if idx.any (fun r => fileMatches pn r fv) then
        parseRowsGo pn hdrs (some { fv := fv, pl := toPLine hdrs row }) rest idx fl
      else
        parseRowsGo pn hdrs none rest idx fl
  | some st, row :: rest, idx, fl =>
    match plGet (toPLine hdrs row) "file" with
    | none => .error "KeyError"
    | some fv2 =>
      if fv2 = st.fv then
        if st.pl.any (fun p => isPlist p.2) then .error "TypeError"
        else parseRowsGo pn hdrs (some st) rest idx fl
      else
        match finishGroup pn st idx fl with
        | .error e => .error e
        | .ok (idx2, fl2) =>
          if idx2.any (fun r => fileMatches pn r fv2) then
            parseRowsGo pn hdrs (some { fv := fv2, pl := toPLine hdrs row }) rest idx2 fl2
          else
            parseRowsGo pn hdrs none rest idx2 fl2

/-- Initialization of `feature_list` for one CSV file:
`feature_list.update({key: [] for key in headers if key not in feature_list
and key != 'file'})`. -/
def initFeatList (hdrs : List String) (fl : FeatList) : FeatList :=
  hdrs.foldl (fun acc h =>
    if h == "file" || acc.any (fun p => p.1 == h) then acc else acc ++ [(h, [])]) fl

/-- Processing of one feature CSV file by `_parse_features`: read the header
line, extend `feature_list`, then run the data-row loop. -/
def parseFeatureFile (pn : String → String) (hdrs : List String)
    (rows : List (List Cell)) (idx : List FRec) (fl : FeatList) :
    Except String (List FRec × FeatList) :=
  parseRowsGo pn hdrs none rows idx (initFeatList hdrs fl)

/-- Row-skip test used for claim C8: the row has a `file` entry and it
matches no record of the index. -/
def rowMisses (pn : String → String) (hdrs : List String) (idx : List FRec)
    (row : List Cell) : Bool :=
  match plGet (toPLine hdrs row) "file" with
  | none => false
  | some fv => idx.all fun r => !(fileMatches pn r fv)

/-- Concrete feature-stage record for `A.tif` with no features yet. -/
def exFRecA : FRec := { file := "A.tif", feats := [] }

/-- A tile pixel buffer: `np.ones((h, w, 1, 1, 1), dtype=np.uint8) * l`, with
the three singleton trailing dimensions collapsed; the `uint8` entries wrap
the level value modulo 256. -/
abbrev Tile := List (List ℤ)

/-- The constant tile for a (width, height, level) triple. -/
def mkTile (w h : ℕ) (l : ℤ) : Tile :=
  List.replicate h (List.replicate w (l % 256))

/-- The key of a heatmap output file: the file is named
`str(w) + '_' + str(h) + '_' + str(l) + '.ome.tif'`, which encodes exactly
this triple. -/
abbrev TileKey := ℕ × ℕ × ℤ

/-- The output image directory: the contents of the tile file for each key,
when that file exists. -/
abbrev TileStore := TileKey → Option Tile

/-- The Cartesian product iterated by the generation loop:
`for w in widths: for h in heights: for l in unique_levels:`. -/
def tileKeys (ws hs : List ℕ) (ls : List ℤ) : List TileKey :=
  ws.flatMap fun w => hs.flatMap fun h => ls.map fun l => (w, h, l)

/-- The heatmap image generation loop of `main`: for each triple whose file
does not already exist (`if not out_file.exists()`), build the constant tile
and hand it to the external tile writer (`BioWriter.write_image`); existing
files are left untouched.  The second component is the chronological log of
write events. -/
def runGen : List TileKey → TileStore → TileStore × List TileKey
  | [], s => (s, [])
  | k :: ks, s =>
    match s k with
    | some _ => runGen ks s
    | none =>
      let out := runGen ks (fun k2 => if k2 = k then some (mkTile k.1 k.2.1 k.2.2) else s k2)
      (out.1, k :: out.2)

/-- The heatmap image generation step of `main` over the full product. -/
def generateImages (ws hs : List ℕ) (ls : List ℤ) (s : TileStore) :
    TileStore × List TileKey :=
  runGen (tileKeys ws hs ls) s

/-- An image record as seen by the output vector writer in `main`: the
stitching fields (present when the record matched a stitching line) and the
scaled integer levels stored back under the feature keys. -/
structure WRec where
  file : String
  stitch : Option StitchData
  feats : List (String × ℤ)
deriving DecidableEq

/-- Dictionary lookup `f[feat]` on the scaled feature levels. -/
def lookupFeat (r : WRec) (k : String) : Option ℤ :=
  (r.feats.find? fun p => p.1 == k).map fun p => p.2

/-- `f['line']` as an optional value: `none` when the record never matched a
stitching line, in which case the dictionary access raises `KeyError`. -/
def lineOf (r : WRec) : Option ℕ :=
  r.stitch.map fun st => st.line

/-- The record scan test `f['line'] == line` for index `n`. -/
def hasLine (n : ℕ) (r : WRec) : Bool :=
  lineOf r == some n

/-- The synthetic tile filename `'{}_{}_{}.ome.tif'.format(w, h, level)`. -/
def tileName (w h : ℕ) (l : ℤ) : String :=
  toString w ++ "_" ++ toString h ++ "_" ++ toString l ++ ".ome.tif"

/-- One line written to an output stitching vector:
`"file: {}; corr: {}; position: ({}, {}); grid: ({}, {});"`, with the file
reference replaced by the synthetic tile filename. -/
structure OutLine where
  file : String
  corr : String
  posX : String
  posY : String
  gridX : String
  gridY : String
deriving DecidableEq

/-- The rendered output line for a record with stitch data `st` and scaled
level `lvl`. -/
def mkOutLine (st : StitchData) (lvl : ℤ) : OutLine :=
  { file := tileName st.width st.height lvl, corr := st.correlation,
    posX := st.posX, posY := st.posY, gridX := st.gridX, gridY := st.gridY }

/-- The scan `for f in fp.iterate(): if f['line'] == line: break` over a
nonempty tail: it stops at the first record whose line index is `n`;
touching a record that has no `line` key raises `KeyError`. -/
def findLineGo : List WRec → ℕ → Except String (Option WRec)
  | [], _ => .ok none
  | r :: rs, n =>
    match r.stitch with
    | none => .error "KeyError"
    | some st => if st.line = n then .ok (some r) else findLineGo rs n

/-- The full record scan; on an empty index the loop variable `f` is never
bound and the subsequent `f['line']` access raises `NameError`. -/
def findLineRec (recs : List WRec) (n : ℕ) : Except String (Option WRec) :=
  match recs with
  | [] => .error "NameError"
  | _ :: _ => findLineGo recs n

/-- Rendering of the matched record: `f['width']`, `f['height']` and the
other stitching fields exist (they were set together with `line`), while
`f[feat]` raises `KeyError` when the record holds no value for the feature. -/
def renderLine (feat : String) (r : WRec) : Except String OutLine :=
  match r.stitch, lookupFeat r feat with
  | some st, some lvl => .ok (mkOutLine st lvl)
  | _, _ => .error "KeyError"

/-- The `while True` emission loop of the output vector writer for one
feature, with explicit fuel standing in for the unbounded loop; exhausted
fuel returns an error, so any `.ok` result is the output of a genuinely
terminating run. -/
def writeLoop (recs : List WRec) (feat : String) : ℕ → ℕ → Except String (List OutLine)
  | 0, _ => .error "NONTERMINATION"
  | fuel + 1, n =>
    match findLineRec recs n with
    | .error e => .error e
    | .ok none => .ok []
    | .ok (some r) =>
      match renderLine feat r with
      | .error e => .error e
      | .ok o =>
        match writeLoop recs feat fuel (n + 1) with
        | .error e => .error e
        | .ok rest => .ok (o :: rest)

/-- The output vector writing step for one feature, with enough fuel for any
terminating run (at most `recs.length` lines can ever be emitted, since each
consumes a distinct line index held by a distinct record). -/
def writeVector (recs : List WRec) (feat : String) : Except String (List OutLine) :=
  writeLoop recs feat (recs.length + 1) 0

/-- Concrete stitch data from vector 1, line index 0. -/
def exStA : StitchData :=
  { correlation := "0.9", posX := "1", posY := "2", gridX := "3", gridY := "4",
    vector := "1", line := 0, width := 8, height := 8 }

/-- Concrete stitch data from vector 2, also line index 0. -/
def exStB : StitchData :=
  { correlation := "0.8", posX := "5", posY := "6", gridX := "7", gridY := "8",
    vector := "2", line := 0, width := 8, height := 8 }

/-- Writer-stage record for `A.tif`, matched in vector 1, with a level. -/
def exWA : WRec := { file := "A.tif", stitch := some exStA, feats := [("area", 40)] }

/-- Writer-stage record for `B.tif`, matched in vector 2, with a level. -/
def exWB : WRec := { file := "B.tif", stitch := some exStB, feats := [("area", 200)] }

-- ===================================================================
-- Theorems
-- ===================================================================

theorem floor_le_pyRound (q : ℚ) : ⌊q⌋ ≤ pyRound q := by
  unfold pyRound
  split_ifs <;> omega

theorem pyRound_le_floor_add_one (q : ℚ) : pyRound q ≤ ⌊q⌋ + 1 := by
  unfold pyRound
  split_ifs <;> omega

theorem pyRound_intCast (n : ℤ) : pyRound (n : ℚ) = n := by
  unfold pyRound
  rw [Int.floor_intCast]
  norm_num

theorem le_pyRound (a : ℤ) (q : ℚ) (h : (a : ℚ) ≤ q) : a ≤ pyRound q := by
  have h1 := floor_le_pyRound q
  have h2 : a ≤ ⌊q⌋ := Int.le_floor.mpr h
  omega

theorem pyRound_le (b : ℤ) (q : ℚ) (h : q ≤ (b : ℚ)) : pyRound q ≤ b := by
  have hfb : ⌊q⌋ ≤ b := by
    have h1 := Int.floor_le_floor h
    simpa using h1
  have hfl : (⌊q⌋ : ℚ) ≤ q := Int.floor_le q
  unfold pyRound
  split_ifs with h1 h2 h3
  · exact hfb
  · have hq : (⌊q⌋ : ℚ) + 1/2 < q := by linarith
    have hb : (⌊q⌋ : ℚ) < (b : ℚ) := by linarith
    have : ⌊q⌋ < b := by exact_mod_cast hb
    omega
  · exact hfb
  · have hq : (⌊q⌋ : ℚ) + 1/2 ≤ q := by
      have := not_lt.mp h1
      linarith
    have hb : (⌊q⌋ : ℚ) < (b : ℚ) := by linarith
    have : ⌊q⌋ < b := by exact_mod_cast hb
    omega

theorem pyRound_mono {q q' : ℚ} (h : q ≤ q') : pyRound q ≤ pyRound q' := by
  rcases lt_or_eq_of_le (Int.floor_le_floor h) with hf | hf
  · calc pyRound q ≤ ⌊q⌋ + 1 := pyRound_le_floor_add_one q
      _ ≤ ⌊q'⌋ := by omega
      _ ≤ pyRound q' := floor_le_pyRound q'
  · unfold pyRound
    rw [← hf]
    have hr : q - (⌊q⌋ : ℚ) ≤ q' - (⌊q⌋ : ℚ) := by linarith
    split_ifs <;> first | omega | linarith

theorem foldl_min_le_init (t : List ℚ) : ∀ a : ℚ, t.foldl min a ≤ a := by
  induction t with
  | nil => intro a; simp
  | cons b t ih =>
    intro a
    have h := ih (min a b)
    simp only [List.foldl_cons]
    exact le_trans h (min_le_left a b)

theorem foldl_min_le_mem (t : List ℚ) : ∀ a x : ℚ, x ∈ t → t.foldl min a ≤ x := by
  induction t with
  | nil => intro a x hx; cases hx
  | cons b t ih =>
    intro a x hx
    simp only [List.foldl_cons]
    rcases List.mem_cons.mp hx with rfl | hx
    · exact le_trans (foldl_min_le_init t (min a x)) (min_le_right a x)
    · exact ih (min a b) x hx

theorem init_le_foldl_max (t : List ℚ) : ∀ a : ℚ, a ≤ t.foldl max a := by
  induction t with
  | nil => intro a; simp
  | cons b t ih =>
    intro a
    have h := ih (max a b)
    simp only [List.foldl_cons]
    exact le_trans (le_max_left a b) h

theorem mem_le_foldl_max (t : List ℚ) : ∀ a x : ℚ, x ∈ t → x ≤ t.foldl max a := by
  induction t with
  | nil => intro a x hx; cases hx
  | cons b t ih =>
    intro a x hx
    simp only [List.foldl_cons]
    rcases List.mem_cons.mp hx with rfl | hx
    · exact le_trans (le_max_right a x) (init_le_foldl_max t (max a x))
    · exact ih (max a b) x hx

theorem listMin_le_mem {l : List ℚ} {v : ℚ} (hv : v ∈ l) : listMin l ≤ v := by
  cases l with
  | nil => cases hv
  | cons a t =>
    unfold listMin
    rcases List.mem_cons.mp hv with rfl | hv
    · exact foldl_min_le_init t v
    · exact foldl_min_le_mem t a v hv

theorem mem_le_listMax {l : List ℚ} {v : ℚ} (hv : v ∈ l) : v ≤ listMax l := by
  cases l with
  | nil => cases hv
  | cons a t =>
    unfold listMax
    rcases List.mem_cons.mp hv with rfl | hv
    · exact init_le_foldl_max t v
    · exact mem_le_foldl_max t a v hv

theorem listMin_le_listMax (l : List ℚ) : listMin l ≤ listMax l := by
  cases l with
  | nil => simp [listMin, listMax]
  | cons a t =>
    exact le_trans (listMin_le_mem (List.mem_cons_self a t))
      (mem_le_listMax (List.mem_cons_self a t))

/-- Claim C1: for a feature whose collected means are `l`, the scaling step
sends every value `v` carried by an image record (so `v ∈ l`) to an integer
level in `{0} ∪ [1,255]`; the level is `0` iff the feature's global range
`max l - min l` is zero, and otherwise it equals
`round((v - min)/range * 254 + 1)`. -/
theorem c1_scaled_level_bounds (l : List ℚ) (v : ℚ) (hv : v ∈ l) :
    (scaleLevel (listMin l) (listMax l - listMin l) v = 0 ∨
       (1 ≤ scaleLevel (listMin l) (listMax l - listMin l) v ∧
        scaleLevel (listMin l) (listMax l - listMin l) v ≤ 255)) ∧
    (scaleLevel (listMin l) (listMax l - listMin l) v = 0 ↔
       listMax l - listMin l = 0) ∧
    (listMax l - listMin l ≠ 0 →
      scaleLevel (listMin l) (listMax l - listMin l) v =
        pyRound ((v - listMin l) / (listMax l - listMin l) * 254 + 1)) := by
  set mn := listMin l with hmn_def
  set mx := listMax l with hmx_def
  by_cases hz : mx - mn = 0
  · refine ⟨Or.inl (by simp [scaleLevel, hz]), ⟨fun _ => hz, fun _ => by simp [scaleLevel, hz]⟩,
      fun h => absurd hz h⟩
  · have hmnv : mn ≤ v := listMin_le_mem hv
    have hvmx : v ≤ mx := mem_le_listMax hv
    have hpos : 0 < mx - mn := lt_of_le_of_ne (by linarith) (Ne.symm hz)
    have h01 : 0 ≤ (v - mn) / (mx - mn) := div_nonneg (by linarith) (le_of_lt hpos)
    have h11 : (v - mn) / (mx - mn) ≤ 1 := by
      rw [div_le_one hpos]; linarith
    have harg1 : (1 : ℚ) ≤ (v - mn) / (mx - mn) * 254 + 1 := by nlinarith
    have harg2 : (v - mn) / (mx - mn) * 254 + 1 ≤ 255 := by nlinarith
    have hlv1 : (1 : ℤ) ≤ pyRound ((v - mn) / (mx - mn) * 254 + 1) :=
      le_pyRound 1 _ (by exact_mod_cast harg1)
    have hlv2 : pyRound ((v - mn) / (mx - mn) * 254 + 1) ≤ 255 :=
      pyRound_le 255 _ (by exact_mod_cast harg2)
    have hval : scaleLevel mn (mx - mn) v = pyRound ((v - mn) / (mx - mn) * 254 + 1) := by
      simp [scaleLevel, hz]
    refine ⟨Or.inr ⟨by rw [hval]; exact hlv1, by rw [hval]; exact hlv2⟩,
      ⟨fun h0 => ?_, fun h => absurd h hz⟩, fun _ => hval⟩
    rw [hval] at h0
    omega

/-- Witness for C1 at the concrete collected list `[0, 1]` and value `1`. -/
theorem c1_scaled_level_bounds_witness :
    (1 : ℚ) ∈ [(0 : ℚ), 1] ∧
    ((scaleLevel (listMin [(0 : ℚ), 1]) (listMax [(0 : ℚ), 1] - listMin [(0 : ℚ), 1]) 1 = 0 ∨
       (1 ≤ scaleLevel (listMin [(0 : ℚ), 1]) (listMax [(0 : ℚ), 1] - listMin [(0 : ℚ), 1]) 1 ∧
        scaleLevel (listMin [(0 : ℚ), 1]) (listMax [(0 : ℚ), 1] - listMin [(0 : ℚ), 1]) 1 ≤ 255)) ∧
    (scaleLevel (listMin [(0 : ℚ), 1]) (listMax [(0 : ℚ), 1] - listMin [(0 : ℚ), 1]) 1 = 0 ↔
       listMax [(0 : ℚ), 1] - listMin [(0 : ℚ), 1] = 0) ∧
    (listMax [(0 : ℚ), 1] - listMin [(0 : ℚ), 1] ≠ 0 →
      scaleLevel (listMin [(0 : ℚ), 1]) (listMax [(0 : ℚ), 1] - listMin [(0 : ℚ), 1]) 1 =
        pyRound ((1 - listMin [(0 : ℚ), 1]) / (listMax [(0 : ℚ), 1] - listMin [(0 : ℚ), 1]) * 254 + 1))) :=
  ⟨by simp, c1_scaled_level_bounds [(0 : ℚ), 1] 1 (by simp)⟩

/-- Claim C3: scaling with the listed global min and range (range = max - min
over the collected means, hence nonnegative) is monotonic: `v1 < v2` implies
`level(v1) ≤ level(v2)`. -/
theorem c3_scaling_monotone (l : List ℚ) (v1 v2 : ℚ) (h : v1 < v2) :
    scaleLevel (listMin l) (listMax l - listMin l) v1 ≤
      scaleLevel (listMin l) (listMax l - listMin l) v2 := by
  set mn := listMin l with hmn_def
  set mx := listMax l with hmx_def
  by_cases hz : mx - mn = 0
  · simp [scaleLevel, hz]
  · have hle : mn ≤ mx := listMin_le_listMax l
    have hpos : 0 < mx - mn := lt_of_le_of_ne (by linarith) (Ne.symm hz)
    have hdiv : (v1 - mn) / (mx - mn) ≤ (v2 - mn) / (mx - mn) := by
      rw [div_eq_mul_inv, div_eq_mul_inv]
      exact mul_le_mul_of_nonneg_right (by linarith) (inv_nonneg.mpr (le_of_lt hpos))
    simp only [scaleLevel, hz, if_false]
    exact pyRound_mono (by linarith)

/-- Witness for C3 at the collected list `[0, 10]` and values `2 < 7`. -/
theorem c3_scaling_monotone_witness :
    (2 : ℚ) < 7 ∧
    scaleLevel (listMin [(0 : ℚ), 10]) (listMax [(0 : ℚ), 10] - listMin [(0 : ℚ), 10]) 2 ≤
      scaleLevel (listMin [(0 : ℚ), 10]) (listMax [(0 : ℚ), 10] - listMin [(0 : ℚ), 10]) 7 :=
  ⟨by norm_num, c3_scaling_monotone [(0 : ℚ), 10] 2 7 (by norm_num)⟩

/-- Claim C10: when a feature's global range is nonzero, the record holding
the global minimum raw value is scaled to exactly level 1 and the record
holding the global maximum to exactly level 255. -/
theorem c10_endpoint_levels (l : List ℚ) (h : listMax l - listMin l ≠ 0) :
    scaleLevel (listMin l) (listMax l - listMin l) (listMin l) = 1 ∧
    scaleLevel (listMin l) (listMax l - listMin l) (listMax l) = 255 := by
  constructor
  · have harg : (listMin l - listMin l) / (listMax l - listMin l) * 254 + 1 = 1 := by
      field_simp
    rw [scaleLevel, if_neg h, harg]
    have h1 := pyRound_intCast 1
    simpa using h1
  · have harg : (listMax l - listMin l) / (listMax l - listMin l) * 254 + 1 = 255 := by
      field_simp
      norm_num
    rw [scaleLevel, if_neg h, harg]
    have h255 := pyRound_intCast 255
    simpa using h255

/-- Witness for C10 at the collected list `[0, 1]`. -/
theorem c10_endpoint_levels_witness :
    listMax [(0 : ℚ), 1] - listMin [(0 : ℚ), 1] ≠ 0 ∧
    (scaleLevel (listMin [(0 : ℚ), 1]) (listMax [(0 : ℚ), 1] - listMin [(0 : ℚ), 1])
        (listMin [(0 : ℚ), 1]) = 1 ∧
     scaleLevel (listMin [(0 : ℚ), 1]) (listMax [(0 : ℚ), 1] - listMin [(0 : ℚ), 1])
        (listMax [(0 : ℚ), 1]) = 255) :=
  ⟨by norm_num [listMax, listMin], c10_endpoint_levels [(0 : ℚ), 1] (by norm_num [listMax, listMin])⟩

theorem updateFirst_any {α : Type} (p q : α → Bool) (f : α → α)
    (hf : ∀ x, q (f x) = q x) :
    ∀ l : List α, (updateFirst p f l).any q = l.any q := by
  intro l
  induction l with
  | nil => rfl
  | cons a t ih =>
    simp only [updateFirst]
    split_ifs with hp
    · simp [List.any_cons, hf]
    · simp [List.any_cons, ih]

theorem updateFirst_find?_of_ne {α : Type} (p q : α → Bool) (f : α → α)
    (hq : ∀ x, q (f x) = q x) (hdisj : ∀ x, p x = true → q x = false) :
    ∀ l : List α, (updateFirst p f l).find? q = l.find? q := by
  intro l
  induction l with
  | nil => rfl
  | cons a t ih =>
    simp only [updateFirst]
    split_ifs with hp
    · have hqa : q a = false := hdisj a hp
      have hqfa : q (f a) = false := by rw [hq]; exact hqa
      rw [List.find?_cons_of_neg _ (by simp [hqfa]), List.find?_cons_of_neg _ (by simp [hqa])]
    · cases hqa : q a with
      | true =>
        rw [List.find?_cons_of_pos _ hqa, List.find?_cons_of_pos _ hqa]
      | false =>
        rw [List.find?_cons_of_neg _ (by simp [hqa]), List.find?_cons_of_neg _ (by simp [hqa])]
        exact ih

theorem updateFirst_find?_self {α : Type} (p : α → Bool) (f : α → α)
    (hf : ∀ x, p (f x) = p x) :
    ∀ l : List α, (updateFirst p f l).find? p = (l.find? p).map f := by
  intro l
  induction l with
  | nil => rfl
  | cons a t ih =>
    simp only [updateFirst]
    split_ifs with hp
    · rw [List.find?_cons_of_pos _ (by rw [hf]; exact hp), List.find?_cons_of_pos _ hp]
      rfl
    · have hpa : p a = false := by
        cases h : p a with
        | true => exact absurd h hp
        | false => rfl
      rw [List.find?_cons_of_neg _ (by simp [hf, hpa]), List.find?_cons_of_neg _ (by simp [hpa])]
      exact ih

theorem parseStitchLines_map_some (pn : String → String) (dims : String → ℕ × ℕ)
    (vind : String) :
    ∀ (ls : List StitchLine) (idx : List SRec) (c : ℕ),
      parseStitchLines pn dims vind (ls.map some) idx c =
        .ok (parseStitchOk pn dims vind ls idx c) := by
  intro ls
  induction ls with
  | nil => intro idx c; rfl
  | cons L ls ih =>
    intro idx c
    simp only [List.map_cons, parseStitchLines, parseStitchOk]
    split_ifs <;> apply ih

theorem parseStitchOk_find?_of_not_mem (pn : String → String) (dims : String → ℕ × ℕ)
    (vind : String) (n : String) :
    ∀ (ls : List StitchLine) (idx : List SRec) (c : ℕ),
      (∀ L ∈ ls, L.file ≠ n) →
      (parseStitchOk pn dims vind ls idx c).find? (matchesLine pn n) =
        idx.find? (matchesLine pn n) := by
  intro ls
  induction ls with
  | nil => intro idx c _; rfl
  | cons L ls ih =>
    intro idx c hn
    simp only [parseStitchOk]
    split_ifs with hmatch
    · rw [ih _ _ (fun L' hL' => hn L' (List.mem_cons_of_mem _ hL'))]
      apply updateFirst_find?_of_ne
      · intro x; rfl
      · intro x hx
        have hLn : L.file ≠ n := hn L (List.mem_cons_self _ _)
        simp only [matchesLine, beq_iff_eq] at hx ⊢
        rw [hx]
        simp [hLn]
    · exact ih _ _ (fun L' hL' => hn L' (List.mem_cons_of_mem _ hL'))

theorem matchedCount_updateFirst (pn : String → String) (dims : String → ℕ × ℕ)
    (vind : String) (L : StitchLine) (c : ℕ) (p : SRec → Bool) (idx : List SRec)
    (X : List StitchLine) :
    matchedCount pn (updateFirst p (applyStitch L vind c dims) idx) X =
      matchedCount pn idx X := by
  have hany : ∀ s : String,
      (updateFirst p (applyStitch L vind c dims) idx).any (matchesLine pn s) =
        idx.any (matchesLine pn s) :=
    fun s => updateFirst_any p (matchesLine pn s) (applyStitch L vind c dims) (fun x => rfl) idx
  unfold matchedCount
  simp only [hany]

theorem matchedCount_cons (pn : String → String) (idx : List SRec) (L : StitchLine)
    (X : List StitchLine) :
    matchedCount pn idx (L :: X) =
      (if idx.any (matchesLine pn L.file) then 1 else 0) + matchedCount pn idx X := by
  unfold matchedCount
  rw [List.filter_cons]
  split_ifs <;> simp [Nat.add_comm]

theorem parseStitchOk_spec (pn : String → String) (dims : String → ℕ × ℕ)
    (vind : String) :
    ∀ (ls : List StitchLine) (idx : List SRec) (c : ℕ) (i : ℕ) (hi : i < ls.length),
      (ls.map StitchLine.file).Nodup →
      idx.any (matchesLine pn (ls.get ⟨i, hi⟩).file) = true →
      ∃ r, (parseStitchOk pn dims vind ls idx c).find?
              (matchesLine pn (ls.get ⟨i, hi⟩).file) = some r ∧
        r.stitch = some
          { correlation := (ls.get ⟨i, hi⟩).corr,
            posX := (ls.get ⟨i, hi⟩).posX, posY := (ls.get ⟨i, hi⟩).posY,
            gridX := (ls.get ⟨i, hi⟩).gridX, gridY := (ls.get ⟨i, hi⟩).gridY,
            vector := vind, line := c + matchedCount pn idx (ls.take i),
            width := (dims r.file).1, height := (dims r.file).2 } := by
  intro ls
  induction ls with
  | nil => intro idx c i hi; exact absurd hi (by simp)
  | cons L ls ih =>
    intro idx c i hi hnd hmatch
    have hndL : ∀ L' ∈ ls, L'.file ≠ L.file := by
      intro L' hL' heq
      have hmem : L.file ∈ ls.map StitchLine.file :=
        heq ▸ List.mem_map_of_mem StitchLine.file hL'
      exact (List.nodup_cons.mp (by simpa using hnd)).1 hmem
    cases i with
    | zero =>
      simp only [List.get] at hmatch ⊢
      simp only [parseStitchOk, hmatch, if_true]
      rw [parseStitchOk_find?_of_not_mem pn dims vind L.file ls _ _
        (fun L' hL' => hndL L' hL')]
      rw [updateFirst_find?_self (matchesLine pn L.file) (applyStitch L vind c dims)
        (fun x => rfl) idx]
      have hsome : (idx.find? (matchesLine pn L.file)).isSome := by
        rw [List.find?_isSome]
        exact List.any_eq_true.mp hmatch
      obtain ⟨r0, hr0⟩ := Option.isSome_iff_exists.mp hsome
      refine ⟨applyStitch L vind c dims r0, by rw [hr0]; rfl, ?_⟩
      simp [applyStitch, List.take, matchedCount]
    | succ j =>
      have hj : j < ls.length := by simpa using hi
      have hget : (L :: ls).get ⟨j + 1, hi⟩ = ls.get ⟨j, hj⟩ := rfl
      rw [hget] at hmatch ⊢
      have hndtl : (ls.map StitchLine.file).Nodup := (List.nodup_cons.mp (by simpa using hnd)).2
      simp only [parseStitchOk]
      split_ifs with hL
      · have hmatch' : (updateFirst (matchesLine pn L.file) (applyStitch L vind c dims) idx).any
            (matchesLine pn (ls.get ⟨j, hj⟩).file) = true := by
          rw [updateFirst_any (matchesLine pn L.file) (matchesLine pn (ls.get ⟨j, hj⟩).file)
            (applyStitch L vind c dims) (fun x => rfl)]
          exact hmatch
        obtain ⟨r, hr, hst⟩ := ih _ (c + 1) j hj hndtl hmatch'
        refine ⟨r, hr, ?_⟩
        rw [hst]
        have hcnt := matchedCount_updateFirst pn dims vind L c
          (matchesLine pn L.file) idx (ls.take j)
        rw [hcnt]
        have : (L :: ls).take (j + 1) = L :: ls.take j := rfl
        rw [this, matchedCount_cons, if_pos hL]
        congr 2
        omega
      · obtain ⟨r, hr, hst⟩ := ih idx c j hj hndtl hmatch
        refine ⟨r, hr, ?_⟩
        rw [hst]
        have : (L :: ls).take (j + 1) = L :: ls.take j := rfl
        rw [this, matchedCount_cons, if_neg hL]
        congr 2
        omega

/-- Counterexample to claim C5 as stated: in a vector whose first line
references `missing.tif` (absent from the index) and whose second line
references `A.tif`, the record for `A.tif` is attached line index 0, although
the line's zero-based position within the vector file is 1 — `line_num` is
incremented only for matched lines. -/
theorem c5_counterexample :
    parseStitchLines id (fun _ => (4, 4)) "1" [some exLineMiss, some exLineA] [exSRecA] 0 =
      .ok [{ file := "A.tif",
             stitch := some
               { correlation := "0.9", posX := "5", posY := "6", gridX := "7",
                 gridY := "8", vector := "1", line := 0, width := 4, height := 4 } }] ∧
    (0 : ℕ) ≠ 1 := by
  constructor
  · rfl
  · decide

/-- Claim C5 (amended): for every stitching-vector line whose file reference
matches a record of the index — in a vector whose lines reference pairwise
distinct files — the parsed correlation, position and grid fields, the vector
id, the image dimensions, and a zero-based index equal to the number of
EARLIER MATCHED lines of that vector (not the line's absolute position in the
file) are attached to that record. -/
theorem c5_stitch_attach (pn : String → String) (dims : String → ℕ × ℕ) (vind : String)
    (ls : List StitchLine) (idx : List SRec) (i : ℕ) (hi : i < ls.length)
    (hnd : (ls.map StitchLine.file).Nodup)
    (hmatch : idx.any (matchesLine pn (ls.get ⟨i, hi⟩).file) = true) :
    ∃ out r, parseStitchLines pn dims vind (ls.map some) idx 0 = .ok out ∧
      out.find? (matchesLine pn (ls.get ⟨i, hi⟩).file) = some r ∧
      r.stitch = some
        { correlation := (ls.get ⟨i, hi⟩).corr,
          posX := (ls.get ⟨i, hi⟩).posX, posY := (ls.get ⟨i, hi⟩).posY,
          gridX := (ls.get ⟨i, hi⟩).gridX, gridY := (ls.get ⟨i, hi⟩).gridY,
          vector := vind, line := matchedCount pn idx (ls.take i),
          width := (dims r.file).1, height := (dims r.file).2 } := by
  obtain ⟨r, hr, hst⟩ := parseStitchOk_spec pn dims vind ls idx 0 i hi hnd hmatch
  refine ⟨parseStitchOk pn dims vind ls idx 0, r, parseStitchLines_map_some pn dims vind ls idx 0, hr, ?_⟩
  rw [hst]
  congr 2
  omega

/-- Witness for the amended C5 at a one-line vector matching `A.tif`. -/
theorem c5_stitch_attach_witness :
    (([exLineA].map StitchLine.file).Nodup ∧
      [exSRecA].any (matchesLine id ([exLineA].get ⟨0, by norm_num⟩).file) = true) ∧
    (∃ out r, parseStitchLines id (fun _ => (4, 4)) "1" ([exLineA].map some) [exSRecA] 0 = .ok out ∧
      out.find? (matchesLine id ([exLineA].get ⟨0, by norm_num⟩).file) = some r ∧
      r.stitch = some
        { correlation := ([exLineA].get ⟨0, by norm_num⟩).corr,
          posX := ([exLineA].get ⟨0, by norm_num⟩).posX,
          posY := ([exLineA].get ⟨0, by norm_num⟩).posY,
          gridX := ([exLineA].get ⟨0, by norm_num⟩).gridX,
          gridY := ([exLineA].get ⟨0, by norm_num⟩).gridY,
          vector := "1", line := matchedCount id [exSRecA] ([exLineA].take 0),
          width := ((fun (_ : String) => ((4 : ℕ), (4 : ℕ))) r.file).1,
          height := ((fun (_ : String) => ((4 : ℕ), (4 : ℕ))) r.file).2 }) :=
  ⟨⟨by decide, by decide⟩,
    c5_stitch_attach id (fun _ => (4, 4)) "1" [exLineA] [exSRecA] 0 (by norm_num)
      (by decide) (by decide)⟩

/-- Claim C9: the stitch line loop raises an error that propagates (rather
than skipping the line) exactly when some line of the vector file fails to
match the expected field pattern (`re.match` returns `None` and
`.groups()` raises `AttributeError`). -/
theorem c9_malformed_line_fatal (pn : String → String) (dims : String → ℕ × ℕ)
    (vind : String) (ls : List (Option StitchLine)) (idx : List SRec) (c : ℕ) :
    (∃ e, parseStitchLines pn dims vind ls idx c = .error e) ↔ none ∈ ls := by
  induction ls generalizing idx c with
  | nil => simp [parseStitchLines]
  | cons o ls ih =>
    cases o with
    | none => simp [parseStitchLines]
    | some L =>
      simp only [parseStitchLines]
      split_ifs with h
      · rw [ih]
        simp
      · rw [ih]
        simp

theorem parseRowsGo_skip_of_misses (pn : String → String) (hdrs : List String)
    (idx : List FRec) (fl : FeatList) :
    ∀ g rest : List (List Cell), g.all (rowMisses pn hdrs idx) = true →
      parseRowsGo pn hdrs none (g ++ rest) idx fl =
        parseRowsGo pn hdrs none rest idx fl := by
  intro g
  induction g with
  | nil => intro rest _; rfl
  | cons row t ih =>
    intro rest hg
    have hrow : rowMisses pn hdrs idx row = true :=
      (List.all_eq_true.mp hg) row (List.mem_cons_self _ _)
    have ht : t.all (rowMisses pn hdrs idx) = true := by
      rw [List.all_eq_true] at hg ⊢
      exact fun x hx => hg x (List.mem_cons_of_mem _ hx)
    unfold rowMisses at hrow
    cases hfv : plGet (toPLine hdrs row) "file" with
    | none =>
      rw [hfv] at hrow
      cases hrow
    | some fv =>
      rw [hfv] at hrow
      have hany : idx.any (fun r => fileMatches pn r fv) = false := by
        cases hcase : idx.any (fun r => fileMatches pn r fv) with
        | false => rfl
        | true =>
          obtain ⟨x, hx, hpx⟩ := List.any_eq_true.mp hcase
          have hx2 := (List.all_eq_true.mp hrow) x hx
          simp [hpx] at hx2
      rw [List.cons_append]
      simp only [parseRowsGo, hfv, hany, Bool.false_eq_true, if_false]
      exact ih rest ht

/-- Claim C2 (code bug): on the spec's own scenario — two contiguous feature
rows for `A.tif` with `area` values 10 and 20 — the aggregator does not
produce the mean 15: the inner accumulation loop of `_parse_features` calls
`float(p_line[key])` on the accumulated list itself instead of the next row's
value, raising an uncaught `TypeError` at the second row of every contiguous
group that has a numeric column.  The scaling half of the scenario is
arithmetic the scaler does satisfy: `round((15-5)/20*254+1) = 128`. -/
theorem c2_group_mean_type_error :
    parseFeatureFile id ["file", "area"]
      [[Cell.txt "A.tif", Cell.num 10], [Cell.txt "A.tif", Cell.num 20]]
      [exFRecA] [] = .error "TypeError" ∧
    scaleLevel 5 20 15 = 128 := by
  refine ⟨rfl, ?_⟩
  norm_num [scaleLevel, pyRound]

/-- Claim C8: a stitching-vector line, and a contiguous run of feature-CSV
rows, whose file reference matches no record of the image index are silently
discarded: no error is raised, no record is created, and parsing continues on
the same index, counter and accumulators exactly as if they were absent. -/
theorem c8_lookup_miss
    (pn : String → String) (dims : String → ℕ × ℕ) (vind : String)
    (L : StitchLine) (ls : List (Option StitchLine)) (idx : List SRec) (c : ℕ)
    (hmiss : idx.all (fun r => !(matchesLine pn L.file r)) = true)
    (pn2 : String → String) (hdrs : List String) (g rest : List (List Cell))
    (idx2 : List FRec) (fl : FeatList)
    (hg : g.all (rowMisses pn2 hdrs idx2) = true) :
    parseStitchLines pn dims vind (some L :: ls) idx c =
      parseStitchLines pn dims vind ls idx c ∧
    parseRowsGo pn2 hdrs none (g ++ rest) idx2 fl =
      parseRowsGo pn2 hdrs none rest idx2 fl := by
  constructor
  · have hany : idx.any (matchesLine pn L.file) = false := by
      cases hcase : idx.any (matchesLine pn L.file) with
      | false => rfl
      | true =>
        obtain ⟨x, hx, hpx⟩ := List.any_eq_true.mp hcase
        have hx2 := (List.all_eq_true.mp hmiss) x hx
        simp [hpx] at hx2
    simp [parseStitchLines, hany]
  · exact parseRowsGo_skip_of_misses pn2 hdrs idx2 fl g rest hg

/-- Witness for C8: a stitch line for `missing.tif` against an index holding
only `A.tif`, and a one-row feature group for `missing.tif`. -/
theorem c8_lookup_miss_witness :
    ([exSRecA].all (fun r => !(matchesLine id exLineMiss.file r)) = true ∧
      [[Cell.txt "missing.tif", Cell.num 10]].all (rowMisses id ["file", "area"] [exFRecA]) = true) ∧
    (parseStitchLines id (fun _ => (4, 4)) "1" (some exLineMiss :: []) [exSRecA] 0 =
        parseStitchLines id (fun _ => (4, 4)) "1" [] [exSRecA] 0 ∧
      parseRowsGo id ["file", "area"] none
          ([[Cell.txt "missing.tif", Cell.num 10]] ++ []) [exFRecA] [] =
        parseRowsGo id ["file", "area"] none [] [exFRecA] []) :=
  ⟨⟨by decide, by decide⟩,
    c8_lookup_miss id (fun _ => (4, 4)) "1" exLineMiss [] [exSRecA] 0 (by decide)
      id ["file", "area"] [[Cell.txt "missing.tif", Cell.num 10]] [] [exFRecA] [] (by decide)⟩

theorem runGen_store (ks : List TileKey) (s : TileStore) (k : TileKey) :
    (runGen ks s).1 k =
      if k ∈ ks ∧ s k = none then some (mkTile k.1 k.2.1 k.2.2) else s k := by
  induction ks generalizing s with
  | nil => simp [runGen]
  | cons a ks ih =>
    simp only [runGen]
    cases hsa : s a with
    | some t =>
      rw [ih]
      by_cases hk : k = a
      · subst hk; simp [hsa]
      · simp [List.mem_cons, hk]
    | none =>
      rw [ih]
      by_cases hk : k = a
      · subst hk; simp [hsa]
      · simp only [List.mem_cons, if_neg hk, hk, false_or]
        simp [hk]

theorem runGen_log_mem (ks : List TileKey) (s : TileStore) (k : TileKey) :
    k ∈ (runGen ks s).2 ↔ k ∈ ks ∧ s k = none := by
  induction ks generalizing s with
  | nil => simp [runGen]
  | cons a ks ih =>
    simp only [runGen]
    cases hsa : s a with
    | some t =>
      rw [ih]
      by_cases hk : k = a
      · subst hk; simp [hsa]
      · simp [List.mem_cons, hk]
    | none =>
      simp only [List.mem_cons]
      rw [ih]
      by_cases hk : k = a
      · subst hk; simp [hsa]
      · simp [hk]

theorem runGen_log_nodup (ks : List TileKey) (s : TileStore) : (runGen ks s).2.Nodup := by
  induction ks generalizing s with
  | nil => simp [runGen]
  | cons a ks ih =>
    simp only [runGen]
    cases hsa : s a with
    | some t => exact ih s
    | none =>
      refine List.nodup_cons.mpr ⟨?_, ih _⟩
      intro hmem
      rw [runGen_log_mem] at hmem
      simp at hmem

theorem runGen_noop (ks : List TileKey) (s : TileStore)
    (h : ∀ k ∈ ks, s k ≠ none) : runGen ks s = (s, []) := by
  induction ks with
  | nil => rfl
  | cons a ks ih =>
    simp only [runGen]
    cases hsa : s a with
    | some t => exact ih (fun k hk => h k (List.mem_cons_of_mem _ hk))
    | none => exact absurd hsa (h a (List.mem_cons_self _ _))

theorem tileKeys_mem (ws hs : List ℕ) (ls : List ℤ) (w h : ℕ) (l : ℤ) :
    (w, h, l) ∈ tileKeys ws hs ls ↔ w ∈ ws ∧ h ∈ hs ∧ l ∈ ls := by
  simp only [tileKeys, List.mem_flatMap, List.mem_map, Prod.mk.injEq]
  constructor
  · rintro ⟨a, ha, b, hb, c, hc, rfl, rfl, rfl⟩
    exact ⟨ha, hb, hc⟩
  · rintro ⟨hw, hh, hl⟩
    exact ⟨w, hw, h, hh, l, hl, rfl, rfl, rfl⟩

theorem mkTile_spec (w h : ℕ) (l : ℤ) :
    (mkTile w h l).length = h ∧
    ∀ row ∈ mkTile w h l, row.length = w ∧ ∀ x ∈ row, x = l % 256 ∧ 0 ≤ x ∧ x < 256 := by
  refine ⟨by simp [mkTile], ?_⟩
  intro row hrow
  have hr := List.eq_of_mem_replicate hrow
  subst hr
  refine ⟨by simp, ?_⟩
  intro x hx
  have hx2 := List.eq_of_mem_replicate hx
  subst hx2
  exact ⟨rfl, Int.emod_nonneg _ (by norm_num), Int.emod_lt_of_pos _ (by norm_num)⟩

/-- Claim C4: heatmap image generation iterates the full Cartesian product of
distinct widths × heights × levels; every triple whose file does not yet
exist receives exactly one write (the write log is duplicate-free and holds
exactly the missing triples) of a single-channel 8-bit tile of that width and
height uniformly filled with the level value; existing files are untouched;
and the step is idempotent — running it again on its own output writes no
file and changes no content. -/
theorem c4_generate_tiles (ws hs : List ℕ) (ls : List ℤ) (s : TileStore) :
    (∀ w h l, (w, h, l) ∈ tileKeys ws hs ls ↔ w ∈ ws ∧ h ∈ hs ∧ l ∈ ls) ∧
    (∀ k, (generateImages ws hs ls s).1 k =
      if k ∈ tileKeys ws hs ls ∧ s k = none then some (mkTile k.1 k.2.1 k.2.2) else s k) ∧
    (∀ k, k ∈ (generateImages ws hs ls s).2 ↔ k ∈ tileKeys ws hs ls ∧ s k = none) ∧
    (generateImages ws hs ls s).2.Nodup ∧
    (∀ w h l, (mkTile w h l).length = h ∧
      ∀ row ∈ mkTile w h l, row.length = w ∧ ∀ x ∈ row, x = l % 256 ∧ 0 ≤ x ∧ x < 256) ∧
    generateImages ws hs ls (generateImages ws hs ls s).1 = ((generateImages ws hs ls s).1, []) := by
  refine ⟨tileKeys_mem ws hs ls, fun k => runGen_store _ s k, fun k => runGen_log_mem _ s k,
    runGen_log_nodup _ s, mkTile_spec, ?_⟩
  unfold generateImages
  apply runGen_noop
  intro k hk
  rw [runGen_store]
  split_ifs with hcond
  · simp
  · intro hnone
    exact hcond ⟨hk, hnone⟩

theorem findLineGo_ok_some (recs : List WRec) (n : ℕ) (r : WRec)
    (h : findLineGo recs n = .ok (some r)) :
    recs.find? (hasLine n) = some r := by
  induction recs with
  | nil => simp [findLineGo] at h
  | cons a t ih =>
    simp only [findLineGo] at h
    cases hst : a.stitch with
    | none =>
      simp only [hst] at h
      exact Except.noConfusion h
    | some st =>
      by_cases hl : st.line = n
      · simp only [hst, if_pos hl] at h
        have ha : a = r := by simpa using h
        subst ha
        have hp : hasLine n a = true := by simp [hasLine, lineOf, hst, hl]
        rw [List.find?_cons_of_pos _ hp]
      · simp only [hst, if_neg hl] at h
        have hp : ¬ hasLine n a = true := by simp [hasLine, lineOf, hst, hl]
        rw [List.find?_cons_of_neg _ hp]
        exact ih h

theorem findLineGo_ok_none (recs : List WRec) (n : ℕ)
    (h : findLineGo recs n = .ok none) :
    recs.find? (hasLine n) = none := by
  induction recs with
  | nil => rfl
  | cons a t ih =>
    simp only [findLineGo] at h
    cases hst : a.stitch with
    | none =>
      simp only [hst] at h
      exact Except.noConfusion h
    | some st =>
      by_cases hl : st.line = n
      · simp only [hst, if_pos hl] at h
        exact absurd h (by simp)
      · simp only [hst, if_neg hl] at h
        have hp : ¬ hasLine n a = true := by simp [hasLine, lineOf, hst, hl]
        rw [List.find?_cons_of_neg _ hp]
        exact ih h

theorem findLineRec_ok_some (recs : List WRec) (n : ℕ) (r : WRec)
    (h : findLineRec recs n = .ok (some r)) : recs.find? (hasLine n) = some r := by
  cases recs with
  | nil => exact Except.noConfusion h
  | cons a t => exact findLineGo_ok_some _ n r h

theorem findLineRec_ok_none (recs : List WRec) (n : ℕ)
    (h : findLineRec recs n = .ok none) : recs.find? (hasLine n) = none := by
  cases recs with
  | nil => exact Except.noConfusion h
  | cons a t => exact findLineGo_ok_none _ n h

theorem writeLoop_spec (recs : List WRec) (feat : String) :
    ∀ (fuel n : ℕ) (out : List OutLine),
      writeLoop recs feat fuel n = .ok out →
      (∀ i (hi : i < out.length),
        ∃ r st lvl, recs.find? (hasLine (n + i)) = some r ∧
          r.stitch = some st ∧ lookupFeat r feat = some lvl ∧
          out.get ⟨i, hi⟩ = mkOutLine st lvl) ∧
      recs.find? (hasLine (n + out.length)) = none := by
  intro fuel
  induction fuel with
  | zero => intro n out h; exact Except.noConfusion h
  | succ fuel ih =>
    intro n out h
    simp only [writeLoop] at h
    cases hfind : findLineRec recs n with
    | error e =>
      simp only [hfind] at h
      exact Except.noConfusion h
    | ok o =>
      cases o with
      | none =>
        simp only [hfind] at h
        have hout : out = [] := by simpa using h.symm
        subst hout
        refine ⟨fun i hi => absurd hi (by simp), ?_⟩
        simpa using findLineRec_ok_none recs n hfind
      | some r =>
        simp only [hfind] at h
        cases hst : r.stitch with
        | none =>
          simp only [renderLine, hst] at h
          exact Except.noConfusion h
        | some st =>
          cases hlv : lookupFeat r feat with
          | none =>
            simp only [renderLine, hst, hlv] at h
            exact Except.noConfusion h
          | some lvl =>
            simp only [renderLine, hst, hlv] at h
            cases hrest : writeLoop recs feat fuel (n + 1) with
            | error e =>
              simp only [hrest] at h
              exact Except.noConfusion h
            | ok rest =>
              simp only [hrest] at h
              have hout : out = mkOutLine st lvl :: rest := by simpa using h.symm
              subst hout
              obtain ⟨ih1, ih2⟩ := ih (n + 1) rest hrest
              constructor
              · intro i hi
                cases i with
                | zero =>
                  refine ⟨r, st, lvl, ?_, hst, hlv, rfl⟩
                  simpa using findLineRec_ok_some recs n r hfind
                | succ j =>
                  have hj : j < rest.length := by simpa using hi
                  obtain ⟨r2, st2, lvl2, hf2, hs2, hl2, hg2⟩ := ih1 j hj
                  refine ⟨r2, st2, lvl2, ?_, hs2, hl2, ?_⟩
                  · have heq : n + (j + 1) = n + 1 + j := by omega
                    rw [heq]
                    exact hf2
                  · simpa using hg2
              · have heq : n + (mkOutLine st lvl :: rest).length = n + 1 + rest.length := by
                  simp
                  omega
                rw [heq]
                exact ih2

/-- Claim C6: any completed run of the output vector writer for a feature
emits records in increasing order of their original line index — the i-th
emitted line comes from the first record whose line index is i, reproducing
that record's correlation, position and grid fields while substituting the
file reference with the tile filename built from its width, height and its
scaled level for the feature — and emission stops at the first line index no
record has. -/
theorem c6_writer_emission (recs : List WRec) (feat : String) (fuel : ℕ)
    (out : List OutLine) (h : writeLoop recs feat fuel 0 = .ok out) :
    (∀ i (hi : i < out.length),
      ∃ r st lvl, recs.find? (hasLine i) = some r ∧
        r.stitch = some st ∧ lookupFeat r feat = some lvl ∧
        out.get ⟨i, hi⟩ = mkOutLine st lvl) ∧
    recs.find? (hasLine out.length) = none := by
  have hs := writeLoop_spec recs feat fuel 0 out h
  simpa using hs

/-- Witness for C6 at one record with line index 0 and feature `area`. -/
theorem c6_writer_emission_witness :
    writeLoop [exWA] "area" 2 0 = .ok [mkOutLine exStA 40] ∧
    ((∀ i (hi : i < [mkOutLine exStA 40].length),
      ∃ r st lvl, [exWA].find? (hasLine i) = some r ∧
        r.stitch = some st ∧ lookupFeat r "area" = some lvl ∧
        [mkOutLine exStA 40].get ⟨i, hi⟩ = mkOutLine st lvl) ∧
    [exWA].find? (hasLine [mkOutLine exStA 40].length) = none) :=
  ⟨rfl, c6_writer_emission [exWA] "area" 2 [mkOutLine exStA 40] rfl⟩

theorem findLineGo_finds (recs : List WRec) (n : ℕ)
    (hst : ∀ r ∈ recs, (r.stitch).isSome = true)
    (hex : ∃ r ∈ recs, lineOf r = some n) :
    ∃ r, findLineGo recs n = .ok (some r) ∧ r ∈ recs := by
  induction recs with
  | nil =>
    obtain ⟨r, hr, _⟩ := hex
    cases hr
  | cons a t ih =>
    cases hsa : a.stitch with
    | none =>
      have h1 := hst a (List.mem_cons_self _ _)
      rw [hsa] at h1
      cases h1
    | some st =>
      by_cases hl : st.line = n
      · exact ⟨a, by simp [findLineGo, hsa, hl], List.mem_cons_self _ _⟩
      · have hex2 : ∃ r ∈ t, lineOf r = some n := by
          obtain ⟨r, hr, hlr⟩ := hex
          rcases List.mem_cons.mp hr with rfl | hr2
          · simp [lineOf, hsa] at hlr
            exact absurd hlr hl
          · exact ⟨r, hr2, hlr⟩
        obtain ⟨r, hrec, hrm⟩ := ih (fun x hx => hst x (List.mem_cons_of_mem _ hx)) hex2
        refine ⟨r, ?_, List.mem_cons_of_mem _ hrm⟩
        simp only [findLineGo, hsa, if_neg hl]
        exact hrec

theorem findLineGo_none_of_forall (recs : List WRec) (n : ℕ)
    (hst : ∀ r ∈ recs, (r.stitch).isSome = true)
    (hno : ∀ r ∈ recs, lineOf r ≠ some n) :
    findLineGo recs n = .ok none := by
  induction recs with
  | nil => rfl
  | cons a t ih =>
    cases hsa : a.stitch with
    | none =>
      have h1 := hst a (List.mem_cons_self _ _)
      rw [hsa] at h1
      cases h1
    | some st =>
      have hl : ¬ st.line = n := by
        intro heq
        exact hno a (List.mem_cons_self _ _) (by simp [lineOf, hsa, heq])
      simp only [findLineGo, hsa, if_neg hl]
      exact ih (fun x hx => hst x (List.mem_cons_of_mem _ hx))
        (fun x hx => hno x (List.mem_cons_of_mem _ hx))

theorem writeLoop_complete (recs : List WRec) (feat : String) (k : ℕ)
    (hne : recs ≠ [])
    (hstP : ∀ r ∈ recs, (r.stitch).isSome = true)
    (hftP : ∀ r ∈ recs, (lookupFeat r feat).isSome = true)
    (hcov : ∀ n, n < k → ∃ r ∈ recs, lineOf r = some n)
    (hbndP : ∀ r ∈ recs, ∀ m, lineOf r = some m → m < k) :
    ∀ (fuel n : ℕ), n ≤ k → k < n + fuel →
      ∃ out, writeLoop recs feat fuel n = .ok out ∧ out.length = k - n := by
  intro fuel
  induction fuel with
  | zero => intro n h1 h2; omega
  | succ fuel ih =>
    intro n h1 h2
    rcases Nat.lt_or_ge n k with hn | hn
    · obtain ⟨r, hfr, hrmem⟩ := findLineGo_finds recs n hstP (hcov n hn)
      have hfr2 : findLineRec recs n = .ok (some r) := by
        cases recs with
        | nil => exact absurd rfl hne
        | cons a t => exact hfr
      obtain ⟨st, hst3⟩ := Option.isSome_iff_exists.mp (hstP r hrmem)
      obtain ⟨lvl, hlv⟩ := Option.isSome_iff_exists.mp (hftP r hrmem)
      obtain ⟨rest, hrest, hlen⟩ := ih (n + 1) (by omega) (by omega)
      refine ⟨mkOutLine st lvl :: rest, ?_, ?_⟩
      · simp only [writeLoop, hfr2, renderLine, hst3, hlv, hrest]
      · simp only [List.length_cons, hlen]
        omega
    · have h3 : ∀ r ∈ recs, lineOf r ≠ some n := by
        intro r hr heq
        have := hbndP r hr n heq
        omega
      have hfind : findLineRec recs n = .ok none := by
        cases recs with
        | nil => exact absurd rfl hne
        | cons a t => exact findLineGo_none_of_forall _ n hstP h3
      refine ⟨[], ?_, ?_⟩
      · simp only [writeLoop, hfind]
      · simp only [List.length_nil]
        omega

theorem length_eq_of_lines (recs : List WRec) (k : ℕ)
    (hstP : ∀ r ∈ recs, (r.stitch).isSome = true)
    (hnd : (recs.map lineOf).Nodup)
    (hcov : ∀ n, n < k → ∃ r ∈ recs, lineOf r = some n)
    (hbndP : ∀ r ∈ recs, ∀ m, lineOf r = some m → m < k) :
    recs.length = k := by
  have hperm : (recs.map lineOf).Perm ((List.range k).map some) := by
    rw [List.perm_ext_iff_of_nodup hnd ((List.nodup_range k).map (Option.some_injective ℕ))]
    intro x
    constructor
    · intro hx
      obtain ⟨r, hr, hrx⟩ := List.mem_map.mp hx
      obtain ⟨st, hst2⟩ := Option.isSome_iff_exists.mp (hstP r hr)
      have hline : lineOf r = some st.line := by simp [lineOf, hst2]
      have hk := hbndP r hr st.line hline
      rw [← hrx, hline]
      exact List.mem_map.mpr ⟨st.line, List.mem_range.mpr hk, rfl⟩
    · intro hx
      obtain ⟨m, hm, hmx⟩ := List.mem_map.mp hx
      obtain ⟨r, hr, hlr⟩ := hcov m (List.mem_range.mp hm)
      rw [← hmx, ← hlr]
      exact List.mem_map_of_mem lineOf hr
  have hlen := hperm.length_eq
  simpa using hlen

/-- Counterexample to claim C7 as stated: records from two stitching vectors
both carry line index 0; both matched a stitching line and both possess a
level for `area`, yet the output vector holds a single line, because the
emission loop takes only the first record per line index and then finds no
record with index 1. -/
theorem c7_counterexample :
    Except.map List.length (writeVector [exWA, exWB] "area") = .ok 1 ∧
    ([exWA, exWB].filter fun r => r.stitch.isSome && (lookupFeat r "area").isSome).length = 2 ∧
    (1 : ℕ) ≠ 2 :=
  ⟨rfl, rfl, by decide⟩

/-- Claim C7 (amended): when every record matched a stitching line and
possesses a level for the feature, and the records' line indices are pairwise
distinct and exactly 0..k-1 — which the stitch stage guarantees when all
records come from one stitching vector — the writer completes and its output
line count equals the number of records that matched a stitching line and
possess a value for that feature.  With several vectors, line indices repeat
and only the first record per index is emitted, as the counterexample shows. -/
theorem c7_output_line_count (recs : List WRec) (feat : String) (k : ℕ)
    (hne : recs ≠ [])
    (hst : recs.all (fun r => r.stitch.isSome) = true)
    (hft : recs.all (fun r => (lookupFeat r feat).isSome) = true)
    (hnd : (recs.map lineOf).Nodup)
    (hcov : ∀ n, n < k → ∃ r ∈ recs, lineOf r = some n)
    (hbnd : recs.all (fun r => (lineOf r).all (fun m => decide (m < k))) = true) :
    ∃ out, writeVector recs feat = .ok out ∧
      out.length = (recs.filter fun r => r.stitch.isSome && (lookupFeat r feat).isSome).length := by
  have hstP : ∀ r ∈ recs, (r.stitch).isSome = true := List.all_eq_true.mp hst
  have hftP : ∀ r ∈ recs, (lookupFeat r feat).isSome = true := List.all_eq_true.mp hft
  have hbndP : ∀ r ∈ recs, ∀ m, lineOf r = some m → m < k := by
    intro r hr m hm
    have h1 := List.all_eq_true.mp hbnd r hr
    rw [hm] at h1
    simpa using h1
  have hlen : recs.length = k := length_eq_of_lines recs k hstP hnd hcov hbndP
  obtain ⟨out, hout, holen⟩ :=
    writeLoop_complete recs feat k hne hstP hftP hcov hbndP (recs.length + 1) 0
      (by omega) (by omega)
  refine ⟨out, hout, ?_⟩
  have hfilter : (recs.filter fun r => r.stitch.isSome && (lookupFeat r feat).isSome) = recs := by
    apply List.filter_eq_self.mpr
    intro r hr
    simp [hstP r hr, hftP r hr]
  rw [hfilter]
  omega

/-- Witness for the amended C7 at a single record with line index 0. -/
theorem c7_output_line_count_witness :
    (([exWA] : List WRec) ≠ [] ∧
      [exWA].all (fun r => r.stitch.isSome) = true ∧
      [exWA].all (fun r => (lookupFeat r "area").isSome) = true ∧
      ([exWA].map lineOf).Nodup ∧
      (∀ n, n < 1 → ∃ r ∈ [exWA], lineOf r = some n) ∧
      [exWA].all (fun r => (lineOf r).all (fun m => decide (m < 1))) = true) ∧
    (∃ out, writeVector [exWA] "area" = .ok out ∧
      out.length = ([exWA].filter fun r => r.stitch.isSome && (lookupFeat r "area").isSome).length) :=
  ⟨⟨by decide, by decide, by decide, by decide, by decide, by decide⟩,
    c7_output_line_count [exWA] "area" 1 (by decide) (by decide) (by decide) (by decide)
      (by decide) (by decide)⟩
